import Mathlib

/-!
Verification of the Geospatial-Viewer core subsystems against their
implementation:

* the bounded TTL cache in front of the WMS `GetFeatureInfo` proxy
  (`server/index.js`, lines 175-266), and
* the geometry normalizer used on incoming AOI polygons
  (`server/routes/aoiRoutes.js`: `closeRings`, `simplifyRing`,
  `simplifyGeometry`, `coordsOutOfBounds`).

The JavaScript code is embedded shallowly: the `Map`-backed cache becomes an
association list in insertion order (a JS `Map` iterates in insertion order
and holds at most one entry per key), timestamps become integers, and
geometry coordinates become rationals (the verified claims are structural
and do not depend on floating-point rounding).
-/

namespace GeospatialViewer

/-! ## Cache data model (server/index.js, lines 175-204) -/

/-- One cache entry `{ data, timestamp: Date.now() }` as stored by
`wmsCache.set` (server/index.js lines 246-249). -/
structure CacheEntry (α : Type) where
  data : α
  timestamp : Int
deriving DecidableEq

/-- The in-memory cache `wmsCache = new Map()` (line 176), modelled as an
association list in insertion order.  The JS `Map` key-uniqueness invariant
(`(c.map Prod.fst).Nodup`) is carried as a hypothesis where needed. -/
abbrev Cache (κ α : Type) := List (κ × CacheEntry α)

/-- `CACHE_TTL = 5 * 60 * 1000` (line 177). -/
def CACHE_TTL : Int := 5 * 60 * 1000

/-- `MAX_CACHE_SIZE = 1000` (line 178). -/
def MAX_CACHE_SIZE : Nat := 1000

/-- JS `Map.get k`: the entry stored under `k`, if any. -/
def mapGet {κ α : Type} [DecidableEq κ] (c : Cache κ α) (k : κ) :
    Option (CacheEntry α) :=
  (c.find? (fun kv => decide (kv.1 = k))).map (fun kv => kv.2)

/-- JS `Map.set k v`: overwrite in place when the key is present, else append
at the end.  This is the whole of the cache-populating statement
`wmsCache.set(cacheKey, { data, timestamp: Date.now() })` (lines 246-249);
note that it performs no cleanup of its own. -/
def setCache {κ α : Type} [DecidableEq κ] (c : Cache κ α) (k : κ) (v : α)
    (now : Int) : Cache κ α :=
  if c.any (fun kv => decide (kv.1 = k)) then
    c.map (fun kv => if kv.1 = k then (k, ⟨v, now⟩) else kv)
  else
    c ++ [(k, ⟨v, now⟩)]

/-- JS `Map.delete k`: remove the entry stored under `k` (there is at most
one in a `Map`; on the list model this erases the first match). -/
def mapDelete {κ α : Type} [DecidableEq κ] (c : Cache κ α) (k : κ) :
    Cache κ α :=
  c.eraseP (fun kv => decide (kv.1 = k))

/-- The cache probe of the `/wms/feature-info` handler (lines 215-218):
`wmsCache.get(cacheKey)` followed by
`if (cached && Date.now() - cached.timestamp < CACHE_TTL) return cached.data`.
A hit requires the entry to exist *and* to be strictly younger than
`CACHE_TTL`. -/
def getCache {κ α : Type} [DecidableEq κ] (c : Cache κ α) (k : κ)
    (now : Int) : Option α :=
  match mapGet c k with
  | some cached => if now - cached.timestamp < CACHE_TTL then some cached.data else none
  | none => none

/-- `cleanupCache()` (lines 181-201).  Phase 1: iterate over a snapshot of
the entries and delete every key whose entry satisfies
`now - value.timestamp > CACHE_TTL` (strict).  Phase 2: if the map is still
larger than `MAX_CACHE_SIZE`, stable-sort the unexpired snapshot entries by
ascending timestamp (JS `Array.prototype.sort` with comparator
`a.timestamp - b.timestamp` is stable, as is `List.insertionSort`) and delete
the first `size - MAX_CACHE_SIZE` of them. -/
def cleanupCache {κ α : Type} [DecidableEq κ] (c : Cache κ α) (now : Int) :
    Cache κ α :=
  let entries := c
  let afterExpiry :=
    entries.foldl
      (fun m kv => if CACHE_TTL < now - kv.2.timestamp then mapDelete m kv.1 else m) c
  if MAX_CACHE_SIZE < afterExpiry.length then
    let sortedEntries :=
      (entries.filter (fun kv => decide (now - kv.2.timestamp ≤ CACHE_TTL))).insertionSort
        (fun a b => a.2.timestamp ≤ b.2.timestamp)
    let toRemove := sortedEntries.take (afterExpiry.length - MAX_CACHE_SIZE)
    toRemove.foldl (fun m kv => mapDelete m kv.1) afterExpiry
  else
    afterExpiry

/-- Outcome of the upstream `fetch` on a cache miss, as seen by the handler:
either a successfully parsed JSON payload, or a failure (a non-OK response —
which the handler turns into a thrown error at line 240 — or a rejected
`fetch`/`response.json()`). -/
inductive Upstream (α : Type) where
  | ok (data : α)
  | fail (msg : String)
deriving DecidableEq

/-- What the handler sends back to its client. -/
inductive HandlerResult (α : Type) where
  | success (data : α)
  | failure (msg : String)
deriving DecidableEq

/-- The `/wms/feature-info` handler (lines 207-266) after parameter parsing:
probe the cache and return a fresh hit directly; on a miss consult the
upstream service, store a successful response with `wmsCache.set` before
returning it, and propagate any failure through the `catch` block without
touching the cache. -/
def featureInfoHandler {κ α : Type} [DecidableEq κ] (c : Cache κ α) (k : κ)
    (now : Int) (upstream : Upstream α) : HandlerResult α × Cache κ α :=
  match getCache c k now with
  | some data => (.success data, c)
  | none =>
    match upstream with
    | .ok data => (.success data, setCache c k data now)
    | .fail msg => (.failure msg, c)

/-! ## Cache key (server/index.js, line 212) -/

/-- Decimal rendering of a nonnegative integer as JS template-literal
interpolation produces it (`${x}` for an integer-valued number): no sign, no
leading zeros, `"0"` for zero.  Written with an explicit recursion budget
(`fuel`) so that it is structurally recursive; `natStr` supplies `n + 1`,
which always suffices since the recursive call divides `n` by ten. -/
def natStrGo : Nat → Nat → List Char
  | 0, _ => []
  | fuel + 1, n =>
    if n < 10 then [Nat.digitChar n]
    else natStrGo fuel (n / 10) ++ [Nat.digitChar (n % 10)]

/-- Decimal rendering of a nonnegative integer (see `natStrGo`). -/
def natStr (n : Nat) : List Char :=
  natStrGo (n + 1) n

/-- The cache fingerprint
`` cacheKey = `${layers}-${x}-${y}-${bbox}-${width}-${height}` ``
(line 212), as a character list.  `layers` and `bbox` are the raw query
strings; `x`, `y`, `width`, `height` are the zod-coerced nonnegative
integers. -/
def cacheKey (layers : List Char) (x y : Nat) (bbox : List Char)
    (width height : Nat) : List Char :=
  layers ++ '-' :: (natStr x ++ '-' :: (natStr y ++ '-' :: (bbox
    ++ '-' :: (natStr width ++ '-' :: natStr height))))

/-! ## Geometry data model (server/routes/aoiRoutes.js) -/

/-- A coordinate pair `[lng, lat]`. -/
abbrev Pt := ℚ × ℚ

/-- The schema-validated GeoJSON geometries accepted by the AOI routes
(`geometrySchema`, aoiRoutes.js lines 17-31): a point, a polygon (list of
rings), or a multi-polygon (list of polygons). -/
inductive Geometry where
  | point (coords : Pt)
  | polygon (coords : List (List Pt))
  | multiPolygon (coords : List (List (List Pt)))
deriving DecidableEq

/-- `ensureClosed` (aoiRoutes.js lines 54-60): if the ring's first and last
points differ in either coordinate, append a copy of the first point.
`ring[0]` and `ring[ring.length - 1]` are modelled with `getD`; rings
reaching this code are schema-validated to have at least four points. -/
def ensureClosed (ring : List Pt) : List Pt :=
  let first := ring.getD 0 (0, 0)
  let last := ring.getD (ring.length - 1) (0, 0)
  if first.1 ≠ last.1 ∨ first.2 ≠ last.2 then ring ++ [(first.1, first.2)] else ring

/-- `closeRings` (aoiRoutes.js lines 53-70): apply `ensureClosed` to every
ring of a polygon or multi-polygon; any other geometry is returned as is. -/
def closeRings : Geometry → Geometry
  | .polygon rings => .polygon (rings.map ensureClosed)
  | .multiPolygon polys => .multiPolygon (polys.map (fun poly => poly.map ensureClosed))
  | g => g

/-- `getSqSegDist` (aoiRoutes.js lines 83-103): squared distance from `p` to
the segment `p1`-`p2`. -/
def getSqSegDist (p p1 p2 : Pt) : ℚ :=
  let x0 := p1.1
  let y0 := p1.2
  let dx := p2.1 - x0
  let dy := p2.2 - y0
  let xy :=
    if dx ≠ 0 ∨ dy ≠ 0 then
      let t := ((p.1 - x0) * dx + (p.2 - y0) * dy) / (dx * dx + dy * dy)
      if 1 < t then (p2.1, p2.2)
      else if 0 < t then (x0 + dx * t, y0 + dy * t)
      else (x0, y0)
    else (x0, y0)
  let ddx := p.1 - xy.1
  let ddy := p.2 - xy.2
  ddx * ddx + ddy * ddy

/-- One iteration of the scan in `simplifyDP` (aoiRoutes.js lines 109-114):
`const sqDist = getSqSegDist(points[i], points[first], points[last])`, and an
update of `(index, maxSqDist)` when the distance strictly exceeds the
running maximum. -/
def farthestStep (points : List Pt) (first last : Nat)
    (acc : Option Nat × ℚ) (i : Nat) : Option Nat × ℚ :=
  let sqDist := getSqSegDist (points.getD i (0, 0)) (points.getD first (0, 0))
    (points.getD last (0, 0))
  if acc.2 < sqDist then (some i, sqDist) else acc

/-- The scan of `simplifyDP` (aoiRoutes.js lines 106-115): fold over
`i = first + 1, …, last - 1`, tracking the index of maximal squared segment
distance.  The running maximum starts at `sqTol` and the index starts
undefined (`none`), exactly as in the source, where `index` is only assigned
when some distance strictly exceeds the running maximum. -/
def findFarthest (points : List Pt) (first last : Nat) (sqTol : ℚ) :
    Option Nat × ℚ :=
  (List.range' (first + 1) (last - (first + 1))).foldl
    (farthestStep points first last) (none, sqTol)

/-- `simplifyDP` (aoiRoutes.js lines 105-122), functionally: the list of
points pushed onto `simplified`, in push order (left half, split point,
right half).  The JS guard `maxSqDist > sqTol && index` holds exactly when
an index was found, since indices range over `first + 1 ≥ 1` (never the
falsy `0`) and the running maximum starts at `sqTol`.  Written with an
explicit recursion budget: each recursive call strictly shrinks
`last - first` because the found index lies strictly between `first` and
`last` (`findFarthest_some_bounds` below), so the budget `last - first`
supplied by `simplifyDP` never runs out before the recursion bottoms out. -/
def simplifyDPGo (points : List Pt) (sqTol : ℚ) : Nat → Nat → Nat → List Pt
  | 0, _, _ => []
  | fuel + 1, first, last =>
    match findFarthest points first last sqTol with
    | (some index, maxSqDist) =>
      if sqTol < maxSqDist then
        (if 1 < index - first then simplifyDPGo points sqTol fuel first index else [])
          ++ points.getD index (0, 0)
          :: (if 1 < last - index then simplifyDPGo points sqTol fuel index last else [])
      else []
    | (none, _) => []

/-- `simplifyDP(points, first, last, sqTol, simplified)` : the points pushed
onto `simplified` (see `simplifyDPGo`). -/
def simplifyDP (points : List Pt) (first last : Nat) (sqTol : ℚ) : List Pt :=
  simplifyDPGo points sqTol (last - first) first last

/-- `simplifyRing` (aoiRoutes.js lines 73-136).  Rings of at most four
points are returned unmodified; otherwise the ring is re-closed if needed,
Douglas-Peucker reduction runs between the two endpoint anchors, and the
(re-closed) ring is returned whenever the reduction would leave fewer than
four points. -/
def simplifyRing (points : List Pt) (tolerance : ℚ) : List Pt :=
  if points.length ≤ 4 then points
  else
    let sqTol := tolerance * tolerance
    let first := points.getD 0 (0, 0)
    let last := points.getD (points.length - 1) (0, 0)
    let ring :=
      if first.1 = last.1 ∧ first.2 = last.2 then points else points ++ [first]
    let simplified :=
      ring.getD 0 (0, 0) :: simplifyDP ring 0 (ring.length - 1) sqTol
        ++ [ring.getD (ring.length - 1) (0, 0)]
    if simplified.length < 4 then ring else simplified

/-- `simplifyGeometry` (aoiRoutes.js lines 138-147): simplify every ring of
a polygon or multi-polygon; any other geometry is returned as is. -/
def simplifyGeometry (g : Geometry) (toleranceDeg : ℚ) : Geometry :=
  match g with
  | .polygon rings => .polygon (rings.map (fun ring => simplifyRing ring toleranceDeg))
  | .multiPolygon polys =>
      .multiPolygon (polys.map (fun poly => poly.map (fun ring => simplifyRing ring toleranceDeg)))
  | g => g

/-- The per-pair range check `ok` of `coordsOutOfBounds` (aoiRoutes.js lines
151-157); the `typeof` checks are vacuous here since coordinates are numbers
by construction. -/
def okCoord (lng lat : ℚ) : Bool :=
  decide (-180 ≤ lng) && decide (lng ≤ 180) && decide (-90 ≤ lat) && decide (lat ≤ 90)

/-- `coordsOutOfBounds` (aoiRoutes.js lines 150-171): true when some
coordinate pair of the geometry is outside WGS84 bounds. -/
def coordsOutOfBounds : Geometry → Bool
  | .point c => !okCoord c.1 c.2
  | .polygon rings => rings.any (fun ring => ring.any (fun p => !okCoord p.1 p.2))
  | .multiPolygon polys =>
      polys.any (fun poly => poly.any (fun ring => ring.any (fun p => !okCoord p.1 p.2)))

/-- `validateBounds` of the specification: the POST handler accepts a
geometry exactly when `coordsOutOfBounds` is false (aoiRoutes.js line
196). -/
def validateBounds (g : Geometry) : Bool :=
  !coordsOutOfBounds g

/-- All coordinate pairs of a geometry, for stating the bounds predicate. -/
def allPairs : Geometry → List Pt
  | .point c => [c]
  | .polygon rings => rings.flatten
  | .multiPolygon polys => (polys.map (fun poly => poly.flatten)).flatten

/-- All rings of a geometry (a point has none). -/
def ringsOf : Geometry → List (List Pt)
  | .point _ => []
  | .polygon rings => rings
  | .multiPolygon polys => polys.flatten

/-! ## Concrete instances used by counterexamples, scenarios and witnesses -/

/-- A full cache: `MAX_CACHE_SIZE` distinct keys, all stored at time 0. -/
def fullCache : Cache Nat Nat :=
  (List.range 1000).map (fun i => (i, ⟨0, 0⟩))

/-- `MAX_CACHE_SIZE + 50` distinct keys inserted with strictly increasing
timestamps `0, 1, …, 1049` (all unexpired at time 1050). -/
def cache1050 : Cache Nat Nat :=
  (List.range 1050).map (fun i => (i, ⟨i, (i : Int)⟩))

/-- A five-point ring whose first and last points differ. -/
def openRing5 : List Pt :=
  [(0, 0), (10, 0), (10, 10), (0, 10), (5, 5)]

/-- A closed five-point square ring. -/
def squareRing : List Pt :=
  [(0, 0), (1, 0), (1, 1), (0, 1), (0, 0)]

/-! ## Cache lemmas -/

section CacheLemmas

variable {κ α : Type}

/-- In a cache with pairwise-distinct keys, entries are determined by their
key. -/
theorem entry_eq_of_key_eq {c : Cache κ α}
    (h : (c.map Prod.fst).Nodup) {a b : κ × CacheEntry α}
    (ha : a ∈ c) (hb : b ∈ c) (hk : a.1 = b.1) : a = b := by
  induction c with
  | nil => cases ha
  | cons e t ih =>
    rw [List.map_cons, List.nodup_cons] at h
    rcases List.mem_cons.1 ha with rfl | ha₂ <;>
      rcases List.mem_cons.1 hb with rfl | hb₂
    · rfl
    · exact absurd (hk ▸ List.mem_map_of_mem Prod.fst hb₂) h.1
    · exact absurd (hk ▸ List.mem_map_of_mem Prod.fst ha₂) h.1
    · exact ih h.2 ha₂ hb₂

theorem nodupKeys_of_sublist {c d : Cache κ α} (hsub : List.Sublist c d)
    (h : (d.map Prod.fst).Nodup) : (c.map Prod.fst).Nodup :=
  (hsub.map Prod.fst).nodup h

/-- Deleting a key from a cache with pairwise-distinct keys is the same as
filtering that key out. -/
theorem mapDelete_eq_filter [DecidableEq κ] {c : Cache κ α}
    (h : (c.map Prod.fst).Nodup) (k : κ) :
    mapDelete c k = c.filter (fun kv => !decide (kv.1 = k)) := by
  induction c with
  | nil => rfl
  | cons e t ih =>
    rw [List.map_cons, List.nodup_cons] at h
    by_cases he : e.1 = k
    · rw [mapDelete, List.eraseP_cons_of_pos (by simpa using he),
        List.filter_cons_of_neg (by simpa using he)]
      symm
      apply List.filter_eq_self.2
      intro kv hkv
      simp only [Bool.not_eq_eq_eq_not, Bool.not_true, decide_eq_false_iff_not]
      intro hkvk
      exact h.1 (he ▸ hkvk ▸ List.mem_map_of_mem Prod.fst hkv)
    · rw [mapDelete, List.eraseP_cons_of_neg (by simpa using he),
        List.filter_cons_of_pos (by simpa using he)]
      rw [← mapDelete, ih h.2]

theorem nodupKeys_mapDelete [DecidableEq κ] {c : Cache κ α}
    (h : (c.map Prod.fst).Nodup) (k : κ) :
    ((mapDelete c k).map Prod.fst).Nodup :=
  nodupKeys_of_sublist (List.eraseP_sublist c) h

/-- Folding unconditional key deletions over a list of entries filters out
every entry whose key occurs in that list. -/
theorem foldl_mapDelete_eq_filter [DecidableEq κ] (r : List (κ × CacheEntry α)) :
    ∀ m : Cache κ α, (m.map Prod.fst).Nodup →
      r.foldl (fun acc kv => mapDelete acc kv.1) m
        = m.filter (fun e => !r.any (fun kv => decide (kv.1 = e.1))) := by
  induction r with
  | nil =>
    intro m _
    simp
  | cons kv r ih =>
    intro m hm
    rw [List.foldl_cons, ih (mapDelete m kv.1) (nodupKeys_mapDelete hm kv.1),
      mapDelete_eq_filter hm, List.filter_filter]
    apply List.filter_congr
    intro e _
    simp only [List.any_cons, Bool.not_or]
    rw [Bool.and_comm]
    have : (decide (kv.1 = e.1)) = (decide (e.1 = kv.1)) :=
      decide_eq_decide.2 eq_comm
    rw [this]

/-- A fold that conditionally deletes is the fold of unconditional deletions
over the filtered list. -/
theorem foldl_ite_mapDelete [DecidableEq κ] (p : κ × CacheEntry α → Prop) [DecidablePred p]
    (l : List (κ × CacheEntry α)) :
    ∀ m : Cache κ α,
      l.foldl (fun acc kv => if p kv then mapDelete acc kv.1 else acc) m
        = (l.filter (fun kv => decide (p kv))).foldl
            (fun acc kv => mapDelete acc kv.1) m := by
  induction l with
  | nil => intro m; rfl
  | cons kv l ih =>
    intro m
    by_cases hp : p kv
    · rw [List.foldl_cons, if_pos hp, List.filter_cons_of_pos (by simpa using hp),
        List.foldl_cons, ih]
    · rw [List.foldl_cons, if_neg hp, List.filter_cons_of_neg (by simpa using hp), ih]

/-- Phase 1 of `cleanupCache` on a cache with pairwise-distinct keys keeps
exactly the entries with `now - timestamp ≤ CACHE_TTL`. -/
theorem afterExpiry_eq [DecidableEq κ] (c : Cache κ α) (now : Int)
    (h : (c.map Prod.fst).Nodup) :
    c.foldl
      (fun m kv => if CACHE_TTL < now - kv.2.timestamp then mapDelete m kv.1 else m) c
      = c.filter (fun kv => decide (now - kv.2.timestamp ≤ CACHE_TTL)) := by
  rw [foldl_ite_mapDelete (fun kv => CACHE_TTL < now - kv.2.timestamp) c c,
    foldl_mapDelete_eq_filter _ c h]
  apply List.filter_congr
  intro e he
  by_cases hexp : CACHE_TTL < now - e.2.timestamp
  · have hany : (c.filter
        (fun kv => decide (CACHE_TTL < now - kv.2.timestamp))).any
        (fun kv => decide (kv.1 = e.1)) = true := by
      refine List.any_eq_true.2 ⟨e, List.mem_filter.2 ⟨he, by simpa using hexp⟩, by simp⟩
    rw [hany]
    simp [Int.not_le.2 hexp]
  · have hany : (c.filter
        (fun kv => decide (CACHE_TTL < now - kv.2.timestamp))).any
        (fun kv => decide (kv.1 = e.1)) = false := by
      refine List.any_eq_false.2 ?_
      rintro kv hkv
      rcases List.mem_filter.1 hkv with ⟨hkvc, hkvexp⟩
      simp only [decide_eq_true_eq] at hkvexp ⊢
      intro hkey
      exact hexp (entry_eq_of_key_eq h hkvc he hkey ▸ hkvexp)
    rw [hany]
    simp [Int.not_lt.1 hexp]

/-- The characterization of a full `cleanupCache` pass on a cache with
pairwise-distinct keys: keep the unexpired entries, and if more than
`MAX_CACHE_SIZE` remain, additionally drop the entries selected by the
oldest-first sort. -/
theorem cleanupCache_eq [DecidableEq κ] (c : Cache κ α) (now : Int)
    (h : (c.map Prod.fst).Nodup) :
    cleanupCache c now =
      (let live := c.filter (fun kv => decide (now - kv.2.timestamp ≤ CACHE_TTL))
       if MAX_CACHE_SIZE < live.length then
         let toRemove :=
           (live.insertionSort (fun a b => a.2.timestamp ≤ b.2.timestamp)).take
             (live.length - MAX_CACHE_SIZE)
         live.filter (fun e => !toRemove.any (fun kv => decide (kv.1 = e.1)))
       else live) := by
  have hlive : ((c.filter
      (fun kv => decide (now - kv.2.timestamp ≤ CACHE_TTL))).map Prod.fst).Nodup :=
    nodupKeys_of_sublist (List.filter_sublist c) h
  simp only [cleanupCache, afterExpiry_eq c now h]
  split
  · exact foldl_mapDelete_eq_filter _ _ hlive
  · rfl

/-- Entries surviving a cleanup pass come from the cache and are unexpired
(in the strict sense actually implemented: age strictly above `CACHE_TTL`
is removed, age exactly `CACHE_TTL` survives). -/
theorem mem_cleanupCache [DecidableEq κ] {c : Cache κ α} {now : Int}
    (h : (c.map Prod.fst).Nodup) {kv : κ × CacheEntry α}
    (hkv : kv ∈ cleanupCache c now) :
    kv ∈ c ∧ now - kv.2.timestamp ≤ CACHE_TTL := by
  rw [cleanupCache_eq c now h] at hkv
  simp only at hkv
  split at hkv
  · rcases List.mem_filter.1 hkv with ⟨hkv₂, -⟩
    rcases List.mem_filter.1 hkv₂ with ⟨hc, hd⟩
    exact ⟨hc, by simpa using hd⟩
  · rcases List.mem_filter.1 hkv with ⟨hc, hd⟩
    exact ⟨hc, by simpa using hd⟩

/-- The number of entries after a cleanup pass: all unexpired entries when
they fit, and exactly `MAX_CACHE_SIZE` otherwise. -/
theorem cleanupCache_length [DecidableEq κ] [DecidableEq α] (c : Cache κ α) (now : Int)
    (h : (c.map Prod.fst).Nodup) :
    (cleanupCache c now).length =
      min (c.filter (fun kv => decide (now - kv.2.timestamp ≤ CACHE_TTL))).length
        MAX_CACHE_SIZE := by
  rw [cleanupCache_eq c now h]
  set live := c.filter (fun kv => decide (now - kv.2.timestamp ≤ CACHE_TTL)) with hlivedef
  have hlivekeys : (live.map Prod.fst).Nodup :=
    nodupKeys_of_sublist (List.filter_sublist c) h
  have hlivenodup : live.Nodup := hlivekeys.of_map Prod.fst
  by_cases hover : MAX_CACHE_SIZE < live.length
  · rw [if_pos hover]
    set sorted := live.insertionSort (fun a b => a.2.timestamp ≤ b.2.timestamp) with hsorteddef
    set toRemove := sorted.take (live.length - MAX_CACHE_SIZE) with htoRemovedef
    have hperm : List.Perm sorted live := List.perm_insertionSort _ _
    have hsortedkeys : (sorted.map Prod.fst).Nodup :=
      (List.Perm.nodup_iff (hperm.map Prod.fst)).2 hlivekeys
    have htrkeys : (toRemove.map Prod.fst).Nodup :=
      nodupKeys_of_sublist (List.take_sublist _ _) hsortedkeys
    have htrnodup : toRemove.Nodup := htrkeys.of_map Prod.fst
    have htrsub : ∀ kv ∈ toRemove, kv ∈ live := fun kv hkv =>
      hperm.mem_iff.1 (List.mem_of_mem_take hkv)
    have hpoint : ∀ e ∈ live,
        (toRemove.any (fun kv => decide (kv.1 = e.1))) = decide (e ∈ toRemove) := by
      intro e he
      by_cases hin : e ∈ toRemove
      · rw [decide_eq_true hin]
        exact List.any_eq_true.2 ⟨e, hin, by simp⟩
      · rw [decide_eq_false hin]
        refine List.any_eq_false.2 ?_
        intro kv hkv
        simp only [decide_eq_true_eq]
        intro hkey
        exact hin (entry_eq_of_key_eq hlivekeys (htrsub kv hkv) he hkey ▸ hkv)
    have hfilter :
        live.filter (fun e => !toRemove.any (fun kv => decide (kv.1 = e.1)))
          = live.filter (fun e => !decide (e ∈ toRemove)) :=
      List.filter_congr (fun e he => by rw [hpoint e he])
    rw [hfilter]
    have hsplit :=
      (List.filter_append_perm (fun e => decide (e ∈ toRemove)) live).length_eq
    rw [List.length_append] at hsplit
    have hinperm :
        List.Perm (live.filter (fun e => decide (e ∈ toRemove))) toRemove := by
      refine (List.perm_ext_iff_of_nodup (hlivenodup.filter _) htrnodup).2 ?_
      intro x
      simp only [List.mem_filter, decide_eq_true_eq]
      exact ⟨fun hx => hx.2, fun hx => ⟨htrsub x hx, hx⟩⟩
    have htrlen : toRemove.length = live.length - MAX_CACHE_SIZE := by
      rw [htoRemovedef, List.length_take, hperm.length_eq]
      omega
    have hinlen := hinperm.length_eq
    omega
  · rw [if_neg hover]
    omega

/-- After overwriting the entries matching `k`, the first match of a lookup
for `k` is the overwritten entry. -/
theorem find?_map_overwrite [DecidableEq κ] (k : κ) (v : α) (now : Int) :
    ∀ c : Cache κ α, c.any (fun kv => decide (kv.1 = k)) = true →
      (c.map (fun kv => if kv.1 = k then (k, ⟨v, now⟩) else kv)).find?
          (fun kv => decide (kv.1 = k))
        = some (k, ⟨v, now⟩) := by
  intro c
  induction c with
  | nil => intro h; cases h
  | cons e t ih =>
    intro hany
    rw [List.map_cons]
    by_cases he : e.1 = k
    · rw [if_pos he]
      exact List.find?_cons_of_pos _ (by simp)
    · rw [if_neg he, List.find?_cons_of_neg _ (by simpa using he)]
      apply ih
      rcases List.any_eq_true.1 hany with ⟨kv, hkv, hkvk⟩
      rcases List.mem_cons.1 hkv with rfl | hkv₂
      · exact absurd (of_decide_eq_true hkvk) he
      · exact List.any_eq_true.2 ⟨kv, hkv₂, hkvk⟩

/-- `Map.set` stores the entry: an immediate `Map.get` for the same key
returns the just-written data and timestamp. -/
theorem mapGet_setCache [DecidableEq κ] (c : Cache κ α) (k : κ) (v : α)
    (now : Int) : mapGet (setCache c k v now) k = some ⟨v, now⟩ := by
  rw [setCache]
  by_cases hany : c.any (fun kv => decide (kv.1 = k)) = true
  · rw [if_pos hany, mapGet, find?_map_overwrite k v now c hany]
    rfl
  · rw [if_neg hany, mapGet, List.find?_append]
    have hnone : c.find? (fun kv => decide (kv.1 = k)) = none := by
      refine List.find?_eq_none.2 ?_
      intro kv hkv hdec
      exact hany (List.any_eq_true.2 ⟨kv, hkv, hdec⟩)
    rw [hnone, Option.none_or, List.find?_cons_of_pos _ (by simp)]
    rfl

/-- On a cache with pairwise-distinct keys, looking a key up finds exactly
the entry stored under it. -/
theorem find?_eq_some_of_mem [DecidableEq κ] {c : Cache κ α}
    (h : (c.map Prod.fst).Nodup) {k : κ} {e : CacheEntry α}
    (hmem : (k, e) ∈ c) :
    c.find? (fun kv => decide (kv.1 = k)) = some (k, e) := by
  induction c with
  | nil => cases hmem
  | cons x t ih =>
    rw [List.map_cons, List.nodup_cons] at h
    by_cases hx : x.1 = k
    · rw [List.find?_cons_of_pos _ (by simpa using hx)]
      have := entry_eq_of_key_eq (List.map_cons Prod.fst x t ▸ List.nodup_cons.2 h)
        (List.mem_cons_self x t) hmem hx
      rw [this]
    · rw [List.find?_cons_of_neg _ (by simpa using hx)]
      apply ih h.2
      rcases List.mem_cons.1 hmem with heq | hmem₂
      · exact absurd (congrArg Prod.fst heq.symm) hx
      · exact hmem₂

/-- On a cache with no entry for `k`, looking `k` up finds nothing. -/
theorem mapGet_eq_none [DecidableEq κ] {c : Cache κ α} {k : κ}
    (h : ∀ e : CacheEntry α, (k, e) ∉ c) : mapGet c k = none := by
  rw [mapGet]
  have : c.find? (fun kv => decide (kv.1 = k)) = none := by
    refine List.find?_eq_none.2 ?_
    intro kv hkv hdec
    have hk : kv.1 = k := of_decide_eq_true hdec
    exact h kv.2 (by rw [← hk]; exact hkv)
  rw [this]
  rfl

end CacheLemmas

/-! ## Geometry lemmas -/

section GeometryLemmas

theorem head?_eq_some_getD (l : List Pt) (h : l ≠ []) :
    l.head? = some (l.getD 0 (0, 0)) := by
  cases l with
  | nil => exact absurd rfl h
  | cons a t => rfl

theorem getLast?_eq_some_getD (l : List Pt) (h : l ≠ []) :
    l.getLast? = some (l.getD (l.length - 1) (0, 0)) := by
  induction l with
  | nil => exact absurd rfl h
  | cons a t ih =>
    cases t with
    | nil => rfl
    | cons b t₂ =>
      rw [List.getLast?_cons_cons, ih (by simp)]
      rfl

/-- `ensureClosed` really closes the ring: its output has identical first
and last points. -/
theorem ensureClosed_closed (ring : List Pt) :
    (ensureClosed ring).head? = (ensureClosed ring).getLast? := by
  cases ring with
  | nil => rfl
  | cons a t =>
    simp only [ensureClosed]
    split
    · rw [List.getLast?_concat, List.cons_append]
      show some a = some (((a :: t).getD 0 (0, 0)).1, ((a :: t).getD 0 (0, 0)).2)
      rw [show (a :: t).getD 0 (0, 0) = a from rfl, Prod.mk.eta]
    · rename_i hcond
      rw [not_or] at hcond
      have h1 : ((a :: t).getD 0 (0, 0)).1
          = ((a :: t).getD ((a :: t).length - 1) (0, 0)).1 :=
        not_not.1 hcond.1
      have h2 : ((a :: t).getD 0 (0, 0)).2
          = ((a :: t).getD ((a :: t).length - 1) (0, 0)).2 :=
        not_not.1 hcond.2
      rw [head?_eq_some_getD _ (List.cons_ne_nil a t),
        getLast?_eq_some_getD _ (List.cons_ne_nil a t)]
      exact congrArg some (Prod.ext h1 h2)

/-- For a ring whose first and last points already coincide, `simplifyRing`
keeps the original first and last points. -/
theorem simplifyRing_anchors_of_closed (points : List Pt) (tol : ℚ)
    (hcl : points.head? = points.getLast?) :
    (simplifyRing points tol).head? = points.head? ∧
    (simplifyRing points tol).getLast? = points.getLast? := by
  by_cases hlen : points.length ≤ 4
  · have he : simplifyRing points tol = points := by
      simp only [simplifyRing, if_pos hlen]
    rw [he]
    exact ⟨rfl, rfl⟩
  · have hne : points ≠ [] := by
      intro h
      rw [h] at hlen
      simp at hlen
    have hfl : points.getD 0 (0, 0) = points.getD (points.length - 1) (0, 0) := by
      have hc := hcl
      rw [head?_eq_some_getD _ hne, getLast?_eq_some_getD _ hne] at hc
      exact Option.some.inj hc
    have hpair : (points.getD 0 (0, 0)).1 = (points.getD (points.length - 1) (0, 0)).1 ∧
        (points.getD 0 (0, 0)).2 = (points.getD (points.length - 1) (0, 0)).2 :=
      ⟨congrArg Prod.fst hfl, congrArg Prod.snd hfl⟩
    have hcases : simplifyRing points tol = points ∨
        simplifyRing points tol =
          (points.getD 0 (0, 0) :: simplifyDP points 0 (points.length - 1) (tol * tol))
            ++ [points.getD (points.length - 1) (0, 0)] := by
      simp only [simplifyRing, if_neg hlen, if_pos hpair]
      exact ite_eq_or_eq _ _ _
    rcases hcases with he | he <;> rw [he]
    · exact ⟨rfl, rfl⟩
    · constructor
      · rw [List.cons_append, List.head?_cons, head?_eq_some_getD _ hne]
      · rw [List.getLast?_concat, getLast?_eq_some_getD _ hne]

/-- For a ring longer than four points whose first and last points differ,
`simplifyRing` re-closes the ring before reducing, so the result ends at the
ring's *first* point. -/
theorem simplifyRing_getLast?_of_open (points : List Pt) (tol : ℚ)
    (hlen : ¬points.length ≤ 4)
    (hcond : ¬((points.getD 0 (0, 0)).1 = (points.getD (points.length - 1) (0, 0)).1 ∧
      (points.getD 0 (0, 0)).2 = (points.getD (points.length - 1) (0, 0)).2)) :
    (simplifyRing points tol).getLast? = some (points.getD 0 (0, 0)) := by
  simp only [simplifyRing, if_neg hlen, if_neg hcond]
  have hrlast : (points ++ [points.getD 0 (0, 0)]).getLast?
      = some (points.getD 0 (0, 0)) := List.getLast?_concat _
  have hrne : points ++ [points.getD 0 (0, 0)] ≠ [] := by simp
  have hrgetD : (points ++ [points.getD 0 (0, 0)]).getD
      ((points ++ [points.getD 0 (0, 0)]).length - 1) (0, 0)
      = points.getD 0 (0, 0) := by
    have hg := getLast?_eq_some_getD _ hrne
    rw [hrlast] at hg
    exact (Option.some.inj hg).symm
  split
  · exact hrlast
  · rw [List.getLast?_concat, hrgetD]

/-- `simplifyRing` returns rings of at most four points untouched and never
shrinks a ring with at least four points below four points. -/
theorem simplifyRing_length_floor (points : List Pt) (tol : ℚ) :
    (points.length ≤ 4 → simplifyRing points tol = points) ∧
    (4 ≤ points.length → 4 ≤ (simplifyRing points tol).length) := by
  constructor
  · intro hlen
    simp only [simplifyRing, if_pos hlen]
  · intro h4
    by_cases hlen : points.length ≤ 4
    · simp only [simplifyRing, if_pos hlen]
      exact h4
    · simp only [simplifyRing, if_neg hlen]
      by_cases hclose : (points.getD 0 (0, 0)).1
            = (points.getD (points.length - 1) (0, 0)).1 ∧
          (points.getD 0 (0, 0)).2 = (points.getD (points.length - 1) (0, 0)).2
      · rw [if_pos hclose]
        split
        · exact h4
        · rename_i hge
          omega
      · rw [if_neg hclose]
        split
        · rw [List.length_append]
          omega
        · rename_i hge
          omega

end GeometryLemmas

/-! ## Fingerprint lemmas -/

section FingerprintLemmas

theorem digitChar_inj_lt : ∀ a < 10, ∀ b < 10,
    Nat.digitChar a = Nat.digitChar b → a = b := by
  decide

theorem digitChar_ne_dash : ∀ a < 10, Nat.digitChar a ≠ '-' := by
  decide

theorem dash_not_mem_natStrGo : ∀ (fuel n : Nat), '-' ∉ natStrGo fuel n := by
  intro fuel
  induction fuel with
  | zero => intro n h; cases h
  | succ f ih =>
    intro n h
    rw [natStrGo] at h
    by_cases hn : n < 10
    · rw [if_pos hn] at h
      exact digitChar_ne_dash n hn (List.mem_singleton.1 h).symm
    · rw [if_neg hn] at h
      rcases List.mem_append.1 h with h₂ | h₂
      · exact ih (n / 10) h₂
      · exact digitChar_ne_dash (n % 10) (Nat.mod_lt n (by omega))
          (List.mem_singleton.1 h₂).symm

theorem dash_not_mem_natStr (n : Nat) : '-' ∉ natStr n :=
  dash_not_mem_natStrGo (n + 1) n

theorem natStrGo_congr : ∀ (n f₁ f₂ : Nat), n < f₁ → n < f₂ →
    natStrGo f₁ n = natStrGo f₂ n := by
  intro n
  induction n using Nat.strong_induction_on with
  | _ n ih =>
    intro f₁ f₂ h₁ h₂
    cases f₁ with
    | zero => omega
    | succ g₁ =>
      cases f₂ with
      | zero => omega
      | succ g₂ =>
        rw [natStrGo, natStrGo]
        by_cases hn : n < 10
        · rw [if_pos hn, if_pos hn]
        · rw [if_neg hn, if_neg hn]
          have hdiv : n / 10 < n := Nat.div_lt_self (by omega) (by omega)
          rw [ih (n / 10) hdiv g₁ g₂ (by omega) (by omega)]

/-- The one-step unfolding of `natStr`: the budget in `natStrGo` is
irrelevant as long as it exceeds the argument. -/
theorem natStr_eq (n : Nat) :
    natStr n = if n < 10 then [Nat.digitChar n]
      else natStr (n / 10) ++ [Nat.digitChar (n % 10)] := by
  rw [natStr, natStrGo]
  by_cases hn : n < 10
  · rw [if_pos hn, if_pos hn]
  · rw [if_neg hn, if_neg hn, natStr]
    have hdiv : n / 10 < n := Nat.div_lt_self (by omega) (by omega)
    rw [natStrGo_congr (n / 10) n (n / 10 + 1) (by omega) (by omega)]

theorem natStrGo_ne_nil : ∀ (fuel n : Nat), n < fuel → natStrGo fuel n ≠ [] := by
  intro fuel
  cases fuel with
  | zero => intro n h; omega
  | succ f =>
    intro n _
    rw [natStrGo]
    by_cases hn : n < 10
    · rw [if_pos hn]
      exact List.cons_ne_nil _ _
    · rw [if_neg hn]
      simp

theorem natStr_ne_nil (n : Nat) : natStr n ≠ [] :=
  natStrGo_ne_nil (n + 1) n (Nat.lt_succ_self n)

/-- Decimal rendering is injective: distinct nonnegative integers
interpolate to distinct strings. -/
theorem natStr_inj : ∀ {m n : Nat}, natStr m = natStr n → m = n := by
  intro m
  induction m using Nat.strong_induction_on with
  | _ m ih =>
    intro n h
    rw [natStr_eq m, natStr_eq n] at h
    by_cases hm : m < 10 <;> by_cases hn : n < 10
    · rw [if_pos hm, if_pos hn] at h
      exact digitChar_inj_lt m hm n hn (List.singleton_injective h)
    · rw [if_pos hm, if_neg hn] at h
      have hlen := congrArg List.length h
      rw [List.length_singleton, List.length_append, List.length_singleton] at hlen
      have := natStr_ne_nil (n / 10)
      have hpos : 0 < (natStr (n / 10)).length := List.length_pos.2 this
      omega
    · rw [if_neg hm, if_pos hn] at h
      have hlen := congrArg List.length h
      rw [List.length_singleton, List.length_append, List.length_singleton] at hlen
      have := natStr_ne_nil (m / 10)
      have hpos : 0 < (natStr (m / 10)).length := List.length_pos.2 this
      omega
    · rw [if_neg hm, if_neg hn] at h
      rcases List.append_inj' h rfl with ⟨hq, hr⟩
      have hdiv : m / 10 < m := Nat.div_lt_self (by omega) (by omega)
      have hqeq : m / 10 = n / 10 := ih (m / 10) hdiv hq
      have hreq : m % 10 = n % 10 :=
        digitChar_inj_lt (m % 10) (Nat.mod_lt m (by omega)) (n % 10)
          (Nat.mod_lt n (by omega)) (List.singleton_injective hr)
      omega

/-- Splitting a dash-separated string: when neither prefix contains a dash,
the prefixes and the tails agree. -/
theorem append_dash_inj : ∀ (a₁ : List Char) {a₂ r₁ r₂ : List Char},
    '-' ∉ a₁ → '-' ∉ a₂ → a₁ ++ '-' :: r₁ = a₂ ++ '-' :: r₂ →
    a₁ = a₂ ∧ r₁ = r₂ := by
  intro a₁
  induction a₁ with
  | nil =>
    intro a₂ r₁ r₂ _ h₂ h
    cases a₂ with
    | nil =>
      rw [List.nil_append, List.nil_append] at h
      exact ⟨rfl, (List.cons.injEq _ _ _ _ ▸ h).2⟩
    | cons c t =>
      rw [List.nil_append, List.cons_append] at h
      rcases List.cons.injEq _ _ _ _ ▸ h with ⟨hc, -⟩
      exact absurd (hc ▸ List.mem_cons_self c t) h₂
  | cons c t ih =>
    intro a₂ r₁ r₂ h₁ h₂ h
    cases a₂ with
    | nil =>
      rw [List.nil_append, List.cons_append] at h
      rcases List.cons.injEq _ _ _ _ ▸ h with ⟨hc, -⟩
      exact absurd (hc ▸ List.mem_cons_self c t) h₁
    | cons c₂ t₂ =>
      rw [List.cons_append, List.cons_append] at h
      rcases List.cons.injEq _ _ _ _ ▸ h with ⟨hc, htail⟩
      rcases ih (fun hm => h₁ (List.mem_cons_of_mem c hm))
        (fun hm => h₂ (List.mem_cons_of_mem c₂ hm)) htail with ⟨ht, hr⟩
      exact ⟨by rw [hc, ht], hr⟩

end FingerprintLemmas

/-! ## Soundness of the recursion budget in `simplifyDPGo`

The index returned by `findFarthest` lies strictly between `first` and
`last`, so the recursion of the source's `simplifyDP` strictly shrinks
`last - first`; consequently `simplifyDPGo` gives the same answer for every
budget of at least `last - first`, and in particular the budget chosen by
`simplifyDP` computes the source's recursion exactly. -/

section BudgetLemmas

theorem findFarthest_some_bounds {points : List Pt} {first last : Nat}
    {sqTol : ℚ} {index : Nat} {d : ℚ}
    (h : findFarthest points first last sqTol = (some index, d)) :
    first < index ∧ index < last := by
  have key : ∀ (l : List Nat) (acc : Option Nat × ℚ),
      (∀ j, acc.1 = some j → first < j ∧ j < last) →
      (∀ i ∈ l, first < i ∧ i < last) →
      ∀ j d₂, l.foldl (farthestStep points first last) acc = (some j, d₂) →
        first < j ∧ j < last := by
    intro l
    induction l with
    | nil =>
      intro acc hacc _ j d₂ hfold
      rw [List.foldl_nil] at hfold
      exact hacc j (by rw [hfold])
    | cons i l ih =>
      intro acc hacc hl j d₂ hfold
      rw [List.foldl_cons] at hfold
      refine ih _ ?_ (fun i₂ hi₂ => hl i₂ (List.mem_cons_of_mem i hi₂)) j d₂ hfold
      intro j₂ hj₂
      simp only [farthestStep] at hj₂
      split at hj₂
      · exact (Option.some.inj hj₂) ▸ hl i (List.mem_cons_self i l)
      · exact hacc j₂ hj₂
  refine key _ _ (fun j hj => by cases hj) ?_ index d h
  intro i hi
  rcases List.mem_range'.1 hi with ⟨k, hk, rfl⟩
  omega

theorem simplifyDPGo_succ (points : List Pt) (sqTol : ℚ) (g first last : Nat) :
    simplifyDPGo points sqTol (g + 1) first last =
      match findFarthest points first last sqTol with
      | (some index, maxSqDist) =>
        if sqTol < maxSqDist then
          (if 1 < index - first then simplifyDPGo points sqTol g first index else [])
            ++ points.getD index (0, 0)
            :: (if 1 < last - index then simplifyDPGo points sqTol g index last else [])
        else []
      | (none, _) => [] :=
  rfl

theorem simplifyDPGo_succ_none (points : List Pt) (sqTol : ℚ)
    (g first last : Nat) {d : ℚ}
    (h : findFarthest points first last sqTol = (none, d)) :
    simplifyDPGo points sqTol (g + 1) first last = [] := by
  rw [simplifyDPGo_succ, h]

theorem simplifyDPGo_succ_some (points : List Pt) (sqTol : ℚ)
    (g first last index : Nat) {d : ℚ}
    (h : findFarthest points first last sqTol = (some index, d)) :
    simplifyDPGo points sqTol (g + 1) first last =
      if sqTol < d then
        (if 1 < index - first then simplifyDPGo points sqTol g first index else [])
          ++ points.getD index (0, 0)
          :: (if 1 < last - index then simplifyDPGo points sqTol g index last else [])
      else [] := by
  rw [simplifyDPGo_succ, h]

theorem simplifyDPGo_congr (points : List Pt) (sqTol : ℚ) :
    ∀ (gap f₁ f₂ first last : Nat), last - first ≤ gap →
      last - first ≤ f₁ → last - first ≤ f₂ →
      simplifyDPGo points sqTol f₁ first last = simplifyDPGo points sqTol f₂ first last := by
  intro gap
  induction gap using Nat.strong_induction_on with
  | _ gap ih =>
    intro f₁ f₂ first last hgap h₁ h₂
    by_cases hz : last - first = 0
    · have hnone : findFarthest points first last sqTol = (none, sqTol) := by
        rw [findFarthest]
        have he : last - (first + 1) = 0 := by omega
        rw [he]
        rfl
      have hval : ∀ f : Nat, simplifyDPGo points sqTol f first last = [] := by
        intro f
        cases f with
        | zero => rfl
        | succ g => exact simplifyDPGo_succ_none points sqTol g first last hnone
      rw [hval f₁, hval f₂]
    · cases f₁ with
      | zero => omega
      | succ g₁ =>
        cases f₂ with
        | zero => omega
        | succ g₂ =>
          rcases hf : findFarthest points first last sqTol with ⟨o, d⟩
          cases o with
          | none =>
            rw [simplifyDPGo_succ_none points sqTol g₁ first last hf,
              simplifyDPGo_succ_none points sqTol g₂ first last hf]
          | some index =>
            obtain ⟨hfi, hil⟩ := findFarthest_some_bounds hf
            rw [simplifyDPGo_succ_some points sqTol g₁ first last index hf,
              simplifyDPGo_succ_some points sqTol g₂ first last index hf,
              ih (index - first) (by omega) g₁ g₂ first index (le_refl _)
                (by omega) (by omega),
              ih (last - index) (by omega) g₁ g₂ index last (le_refl _)
                (by omega) (by omega)]

end BudgetLemmas

/-! ## Claims -/

set_option maxRecDepth 100000 in
/-- Claim C1, counterexample: `wmsCache.set` does not trigger a cleanup
pass.  Writing one more key into a cache already holding `MAX_CACHE_SIZE`
entries — all of them live at the current time `0` — leaves `1001` live
entries in place, which an insertion-triggered cleanup would have capped at
`MAX_CACHE_SIZE`. -/
theorem put_overflows_without_cleanup :
    (setCache fullCache 1000 7 0).length = 1001 ∧
    MAX_CACHE_SIZE < (setCache fullCache 1000 7 0).length ∧
    (setCache fullCache 1000 7 0).all
      (fun kv => decide (0 - kv.2.timestamp < CACHE_TTL)) = true := by
  decide

/-- Claim C1 (amended): `wmsCache.set` inserts or overwrites the entry for
its key with the current timestamp but triggers no cleanup pass; the
cleanup pass itself, which runs only on a fixed timer, leaves at most
`MAX_CACHE_SIZE` entries in the cache. -/
theorem setCache_stores_and_cleanupCache_bounds {κ α : Type}
    [DecidableEq κ] [DecidableEq α] (c : Cache κ α) (k : κ) (v : α)
    (now tCleanup : Int) (h : (c.map Prod.fst).Nodup) :
    mapGet (setCache c k v now) k = some ⟨v, now⟩ ∧
    (cleanupCache c tCleanup).length ≤ MAX_CACHE_SIZE :=
  ⟨mapGet_setCache c k v now, by
    rw [cleanupCache_length c tCleanup h]
    exact min_le_right _ _⟩

/-- Witness for the amended claim C1 at a concrete one-entry cache. -/
theorem setCache_stores_and_cleanupCache_bounds_witness :
    mapGet (setCache [((0 : Nat), (⟨1, 0⟩ : CacheEntry Nat))] 5 9 3) 5
        = some ⟨9, 3⟩ ∧
    (cleanupCache [((0 : Nat), (⟨1, 0⟩ : CacheEntry Nat))] 7).length
        ≤ MAX_CACHE_SIZE :=
  setCache_stores_and_cleanupCache_bounds [((0 : Nat), ⟨1, 0⟩)] 5 9 3 7 (by decide)

/-- Claim C3: `get` returns the stored value exactly when an entry for the
key is present and strictly younger than `CACHE_TTL`; an absent key — and
likewise an expired-but-unpurged entry, through the `else` of the age
guard — yields a miss. -/
theorem getCache_hit_characterization {κ α : Type} [DecidableEq κ]
    (c : Cache κ α) (k : κ) (now : Int) (h : (c.map Prod.fst).Nodup) :
    (∀ e : CacheEntry α, (k, e) ∈ c →
      getCache c k now
        = if now - e.timestamp < CACHE_TTL then some e.data else none) ∧
    ((∀ e : CacheEntry α, (k, e) ∉ c) → getCache c k now = none) := by
  constructor
  · intro e hmem
    have hm : mapGet c k = some e := by
      rw [mapGet, find?_eq_some_of_mem h hmem]
      rfl
    simp only [getCache, hm]
  · intro habs
    have hm : mapGet c k = none := mapGet_eq_none habs
    simp only [getCache, hm]

/-- Witness for claim C3: a fresh hit on a one-entry cache. -/
theorem getCache_hit_characterization_witness :
    getCache [((1 : Nat), (⟨5, 0⟩ : CacheEntry Nat))] 1 10 = some 5 := by
  rw [(getCache_hit_characterization [((1 : Nat), (⟨5, 0⟩ : CacheEntry Nat))]
      1 10 (by decide)).1 ⟨5, 0⟩ (by decide),
    if_pos (by decide)]

/-- Claim C8: on a cache miss, an upstream failure propagates to the caller
and leaves the cache exactly as it was, and the cache is only ever written
with a successful upstream response. -/
theorem featureInfoHandler_failure_propagates {κ α : Type} [DecidableEq κ]
    (c : Cache κ α) (k : κ) (now : Int) :
    (∀ msg, getCache c k now = none →
      featureInfoHandler c k now (.fail msg) = (.failure msg, c)) ∧
    (∀ u : Upstream α, (featureInfoHandler c k now u).2 ≠ c →
      ∃ d, u = .ok d ∧ (featureInfoHandler c k now u).2 = setCache c k d now) := by
  constructor
  · intro msg hmiss
    simp only [featureInfoHandler, hmiss]
  · intro u hne
    cases hc : getCache c k now with
    | some data =>
      simp only [featureInfoHandler, hc] at hne
      exact absurd rfl hne
    | none =>
      cases u with
      | ok d =>
        refine ⟨d, rfl, ?_⟩
        simp only [featureInfoHandler, hc]
      | fail msg =>
        simp only [featureInfoHandler, hc] at hne
        exact absurd rfl hne

/-- Witness for claim C8: a failing upstream call on an empty cache is
propagated and stores nothing. -/
theorem featureInfoHandler_failure_propagates_witness :
    featureInfoHandler ([] : Cache Nat Nat) 0 0 (Upstream.fail "upstream down")
      = (HandlerResult.failure "upstream down", []) :=
  (featureInfoHandler_failure_propagates [] 0 0).1 "upstream down" rfl

/-- Claim C4, counterexample: the cleanup pass keeps an entry whose age is
exactly `CACHE_TTL` (the code removes only ages strictly greater than
`CACHE_TTL`), whereas the claim requires every entry with
`now - storedAt ≥ TTL` to be removed. -/
theorem cleanup_keeps_entry_aged_exactly_ttl :
    cleanupCache [((0 : Nat), (⟨3, 0⟩ : CacheEntry Nat))] CACHE_TTL
      = [((0 : Nat), (⟨3, 0⟩ : CacheEntry Nat))] ∧
    CACHE_TTL ≤ CACHE_TTL - (0 : Int) := by
  decide

set_option maxRecDepth 100000 in
/-- Claim C4 (amended): a cleanup pass removes exactly the entries with
`now - storedAt > TTL` (strictly), keeps all others when they number at most
`MAX_CACHE_SIZE`, and otherwise evicts oldest-first down to exactly
`MAX_CACHE_SIZE` entries; in particular, after inserting
`MAX_CACHE_SIZE + 50` distinct keys with strictly increasing fresh
timestamps, one cleanup pass leaves exactly the `MAX_CACHE_SIZE`
most-recently-inserted entries. -/
theorem cleanupCache_two_phase :
    (∀ {κ α : Type} [DecidableEq κ] [DecidableEq α] (c : Cache κ α) (now : Int),
      (c.map Prod.fst).Nodup →
      (∀ kv ∈ cleanupCache c now, kv ∈ c ∧ now - kv.2.timestamp ≤ CACHE_TTL) ∧
      ((c.filter (fun kv => decide (now - kv.2.timestamp ≤ CACHE_TTL))).length
          ≤ MAX_CACHE_SIZE →
        cleanupCache c now
          = c.filter (fun kv => decide (now - kv.2.timestamp ≤ CACHE_TTL))) ∧
      (cleanupCache c now).length =
        min (c.filter (fun kv => decide (now - kv.2.timestamp ≤ CACHE_TTL))).length
          MAX_CACHE_SIZE) ∧
    cleanupCache cache1050 1050 = cache1050.drop 50 ∧
    (cleanupCache cache1050 1050).length = MAX_CACHE_SIZE := by
  have hsc : cleanupCache cache1050 1050 = cache1050.drop 50 := by decide
  refine ⟨?_, hsc, by rw [hsc]; decide⟩
  intro κ α _ _ c now h
  refine ⟨fun kv hkv => mem_cleanupCache h hkv, ?_, cleanupCache_length c now h⟩
  intro hfit
  rw [cleanupCache_eq c now h]
  simp only
  rw [if_neg (by omega)]

/-- Witness for the amended claim C4 at a concrete one-entry cache. -/
theorem cleanupCache_two_phase_witness :
    (cleanupCache [((0 : Nat), (⟨1, 0⟩ : CacheEntry Nat))] 5).length =
      min ([((0 : Nat), (⟨1, 0⟩ : CacheEntry Nat))].filter
        (fun kv => decide (5 - kv.2.timestamp ≤ CACHE_TTL))).length
        MAX_CACHE_SIZE :=
  (cleanupCache_two_phase.1 [((0 : Nat), ⟨1, 0⟩)] 5 (by decide)).2.2

/-- Claim C2, counterexample: the fingerprint is not injective.  The tuples
`(layers = "L-0", x = 0, y = 0, bbox = "B", width = 1, height = 1)` and
`(layers = "L", x = 0, y = 0, bbox = "0-B", width = 1, height = 1)` differ
in `layers` and `bbox` yet produce the same key `"L-0-0-0-B-1-1"`, because
the dash separator also occurs inside the free-form `layers`/`bbox`
strings. -/
theorem cacheKey_collision :
    cacheKey ('L' :: '-' :: ['0']) 0 0 ['B'] 1 1
      = cacheKey ['L'] 0 0 ('0' :: '-' :: ['B']) 1 1 ∧
    ('L' :: '-' :: ['0'] : List Char) ≠ ['L'] := by
  decide

/-- Claim C2 (amended): the fingerprint is deterministic, and it is
injective over tuples whose `layers` and `bbox` strings contain no dash
separator; two tuples with dash-free `layers` and `bbox` that produce the
same key agree in every parameter. -/
theorem cacheKey_deterministic_and_injective_on_dashfree
    (l₁ l₂ b₁ b₂ : List Char) (x₁ y₁ w₁ h₁ x₂ y₂ w₂ h₂ : Nat)
    (hl₁ : '-' ∉ l₁) (hl₂ : '-' ∉ l₂) (hb₁ : '-' ∉ b₁) (hb₂ : '-' ∉ b₂)
    (heq : cacheKey l₁ x₁ y₁ b₁ w₁ h₁ = cacheKey l₂ x₂ y₂ b₂ w₂ h₂) :
    cacheKey l₁ x₁ y₁ b₁ w₁ h₁ = cacheKey l₁ x₁ y₁ b₁ w₁ h₁ ∧
    l₁ = l₂ ∧ x₁ = x₂ ∧ y₁ = y₂ ∧ b₁ = b₂ ∧ w₁ = w₂ ∧ h₁ = h₂ := by
  refine ⟨rfl, ?_⟩
  rw [cacheKey, cacheKey] at heq
  obtain ⟨hl, heq⟩ := append_dash_inj l₁ hl₁ hl₂ heq
  obtain ⟨hx, heq⟩ := append_dash_inj (natStr x₁)
    (dash_not_mem_natStr x₁) (dash_not_mem_natStr x₂) heq
  obtain ⟨hy, heq⟩ := append_dash_inj (natStr y₁)
    (dash_not_mem_natStr y₁) (dash_not_mem_natStr y₂) heq
  obtain ⟨hb, heq⟩ := append_dash_inj b₁ hb₁ hb₂ heq
  obtain ⟨hw, hh⟩ := append_dash_inj (natStr w₁)
    (dash_not_mem_natStr w₁) (dash_not_mem_natStr w₂) heq
  exact ⟨hl, natStr_inj hx, natStr_inj hy, hb, natStr_inj hw, natStr_inj hh⟩

/-- Witness for the amended claim C2 at concrete dash-free parameters. -/
theorem cacheKey_deterministic_and_injective_on_dashfree_witness :
    cacheKey ['a'] 1 2 ['b'] 3 4 = cacheKey ['a'] 1 2 ['b'] 3 4 ∧
    (['a'] : List Char) = ['a'] ∧ (1 : Nat) = 1 ∧ (2 : Nat) = 2 ∧
    (['b'] : List Char) = ['b'] ∧ (3 : Nat) = 3 ∧ (4 : Nat) = 4 :=
  cacheKey_deterministic_and_injective_on_dashfree
    ['a'] ['a'] ['b'] ['b'] 1 2 3 4 1 2 3 4
    (by decide) (by decide) (by decide) (by decide) rfl

/-- Claim C5, counterexample: for a five-point ring whose first and last
points differ, the simplified ring's last point is the ring's *first* point
(appended by the re-closing step), not the original last point. -/
theorem simplifyRing_moves_last_point_of_open_ring :
    4 ≤ openRing5.length ∧ (0 : ℚ) ≤ 0 ∧
    (simplifyRing openRing5 0).getLast? ≠ openRing5.getLast? := by
  refine ⟨by decide, le_refl 0, ?_⟩
  rw [simplifyRing_getLast?_of_open openRing5 0 (by decide) (by decide)]
  decide

/-- Claim C5 (amended): for every ring with at least four points whose
first and last points coincide — as holds for every ring after
`closeRings` — and every tolerance ≥ 0, `simplifyRing` preserves the ring's
first and last points. -/
theorem simplifyRing_preserves_anchors_of_closed_ring (R : List Pt) (tol : ℚ)
    (_hlen : 4 ≤ R.length) (_htol : 0 ≤ tol) (hclosed : R.head? = R.getLast?) :
    (simplifyRing R tol).head? = R.head? ∧
    (simplifyRing R tol).getLast? = R.getLast? :=
  simplifyRing_anchors_of_closed R tol hclosed

/-- Witness for the amended claim C5 at a concrete closed square ring. -/
theorem simplifyRing_preserves_anchors_of_closed_ring_witness :
    (simplifyRing squareRing 0).head? = squareRing.head? ∧
    (simplifyRing squareRing 0).getLast? = squareRing.getLast? :=
  simplifyRing_preserves_anchors_of_closed_ring squareRing 0
    (by decide) (le_refl 0) (by decide)

/-- Claim C6: for any tolerance ≥ 0, `simplifyRing` returns rings of at
most four points unmodified; it never returns fewer than four points for a
ring of at least four points; and when the reduction would produce fewer
than four points it returns the pre-simplification (re-closed) ring
unchanged. -/
theorem simplifyRing_point_count_floor (R : List Pt) (tol : ℚ)
    (_htol : 0 ≤ tol) :
    (R.length ≤ 4 → simplifyRing R tol = R) ∧
    (4 ≤ R.length → 4 ≤ (simplifyRing R tol).length) ∧
    (¬R.length ≤ 4 →
      ∀ ring : List Pt,
        ring = (if (R.getD 0 (0, 0)).1 = (R.getD (R.length - 1) (0, 0)).1 ∧
            (R.getD 0 (0, 0)).2 = (R.getD (R.length - 1) (0, 0)).2
          then R else R ++ [R.getD 0 (0, 0)]) →
        (ring.getD 0 (0, 0) :: simplifyDP ring 0 (ring.length - 1) (tol * tol)
            ++ [ring.getD (ring.length - 1) (0, 0)]).length < 4 →
        simplifyRing R tol = ring) := by
  refine ⟨(simplifyRing_length_floor R tol).1, (simplifyRing_length_floor R tol).2, ?_⟩
  intro hlen ring hring hsm
  subst hring
  simp only [simplifyRing, if_neg hlen]
  rw [if_pos hsm]

/-- Witness for claim C6: the simplified square ring keeps at least four
points. -/
theorem simplifyRing_point_count_floor_witness :
    4 ≤ (simplifyRing squareRing 0).length :=
  (simplifyRing_point_count_floor squareRing 0 (le_refl 0)).2.1 (by decide)

/-- A ring whose first and last points coincide stays closed through
`simplifyRing`. -/
theorem simplifyRing_closed_of_closed (r : List Pt) (tol : ℚ)
    (h : r.head? = r.getLast?) :
    (simplifyRing r tol).head? = (simplifyRing r tol).getLast? := by
  obtain ⟨h1, h2⟩ := simplifyRing_anchors_of_closed r tol h
  rw [h1, h2, h]

/-- Claim C7: after the normalization pipeline (`closeRings` followed by
`simplifyGeometry`), every ring of a polygon or multi-polygon has identical
first and last coordinate pairs: `closeRings` closes each ring and
`simplifyRing` preserves the closure. -/
theorem normalization_closes_every_ring (g : Geometry) (tol : ℚ)
    (_h : ∀ r ∈ ringsOf g, 4 ≤ r.length) :
    ∀ r ∈ ringsOf (simplifyGeometry (closeRings g) tol),
      r.head? = r.getLast? := by
  intro r hr
  cases g with
  | point c =>
    simp [closeRings, simplifyGeometry, ringsOf] at hr
  | polygon rings =>
    simp only [closeRings, simplifyGeometry, ringsOf, List.map_map] at hr
    rcases List.mem_map.1 hr with ⟨r₀, _, rfl⟩
    exact simplifyRing_closed_of_closed (ensureClosed r₀) tol (ensureClosed_closed r₀)
  | multiPolygon polys =>
    simp only [closeRings, simplifyGeometry, ringsOf, List.map_map] at hr
    rcases List.mem_flatten.1 hr with ⟨l, hl, hrl⟩
    rcases List.mem_map.1 hl with ⟨poly, _, rfl⟩
    simp only [Function.comp_apply] at hrl
    rcases List.mem_map.1 hrl with ⟨r₁, hr₁, rfl⟩
    rcases List.mem_map.1 hr₁ with ⟨r₀, _, rfl⟩
    exact simplifyRing_closed_of_closed (ensureClosed r₀) tol (ensureClosed_closed r₀)

/-- Witness for claim C7 at a concrete one-ring polygon. -/
theorem normalization_closes_every_ring_witness :
    (ringsOf (simplifyGeometry (closeRings (Geometry.polygon [squareRing])) 0)).all
      (fun r => decide (r.head? = r.getLast?)) = true :=
  List.all_eq_true.2 (fun r hr => decide_eq_true
    (normalization_closes_every_ring (Geometry.polygon [squareRing]) 0
      (by decide) r hr))

/-- The per-pair range check agrees with the WGS84 bounds. -/
theorem okCoord_eq_true_iff (lng lat : ℚ) :
    okCoord lng lat = true ↔
      -180 ≤ lng ∧ lng ≤ 180 ∧ -90 ≤ lat ∧ lat ≤ 90 := by
  simp [okCoord, and_assoc]

/-- `validateBounds` holds exactly when the per-pair check passes on every
coordinate pair of the geometry. -/
theorem validateBounds_iff_all (g : Geometry) :
    validateBounds g = true ↔ ∀ p ∈ allPairs g, okCoord p.1 p.2 = true := by
  have hbase : validateBounds g = true ↔ ¬coordsOutOfBounds g = true := by
    rw [validateBounds]
    cases coordsOutOfBounds g <;> simp
  rw [hbase]
  cases g with
  | point c =>
    constructor
    · intro h p hp
      rcases List.mem_singleton.1 hp with rfl
      cases hok : okCoord p.1 p.2 with
      | false =>
        refine absurd (show coordsOutOfBounds (Geometry.point p) = true from ?_) h
        show (!okCoord p.1 p.2) = true
        rw [hok]
        rfl
      | true => rfl
    · intro h hc
      have hc₂ : (!okCoord c.1 c.2) = true := hc
      rw [h c (List.mem_singleton.2 rfl)] at hc₂
      exact Bool.noConfusion hc₂
  | polygon rings =>
    constructor
    · intro h p hp
      rcases List.mem_flatten.1 hp with ⟨ring, hring, hpring⟩
      cases hok : okCoord p.1 p.2 with
      | false =>
        refine absurd (show coordsOutOfBounds (Geometry.polygon rings) = true from ?_) h
        show rings.any (fun ring => ring.any (fun p => !okCoord p.1 p.2)) = true
        refine List.any_eq_true.2 ⟨ring, hring, List.any_eq_true.2 ⟨p, hpring, ?_⟩⟩
        rw [hok]
        rfl
      | true => rfl
    · intro h hany
      have hany₂ : rings.any (fun ring => ring.any (fun p => !okCoord p.1 p.2)) = true :=
        hany
      rcases List.any_eq_true.1 hany₂ with ⟨ring, hring, hringany⟩
      rcases List.any_eq_true.1 hringany with ⟨p, hpring, hpfalse⟩
      rw [h p (List.mem_flatten.2 ⟨ring, hring, hpring⟩)] at hpfalse
      exact Bool.noConfusion hpfalse
  | multiPolygon polys =>
    constructor
    · intro h p hp
      rcases List.mem_flatten.1 hp with ⟨flat, hflat, hpflat⟩
      rcases List.mem_map.1 hflat with ⟨poly, hpoly, rfl⟩
      rcases List.mem_flatten.1 hpflat with ⟨ring, hring, hpring⟩
      cases hok : okCoord p.1 p.2 with
      | false =>
        refine absurd
          (show coordsOutOfBounds (Geometry.multiPolygon polys) = true from ?_) h
        show polys.any
          (fun poly => poly.any (fun ring => ring.any (fun p => !okCoord p.1 p.2))) = true
        refine List.any_eq_true.2 ⟨poly, hpoly,
          List.any_eq_true.2 ⟨ring, hring, List.any_eq_true.2 ⟨p, hpring, ?_⟩⟩⟩
        rw [hok]
        rfl
      | true => rfl
    · intro h hany
      have hany₂ : polys.any
          (fun poly => poly.any (fun ring => ring.any (fun p => !okCoord p.1 p.2)))
            = true := hany
      rcases List.any_eq_true.1 hany₂ with ⟨poly, hpoly, hpolyany⟩
      rcases List.any_eq_true.1 hpolyany with ⟨ring, hring, hringany⟩
      rcases List.any_eq_true.1 hringany with ⟨p, hpring, hpfalse⟩
      have hpmem : p ∈ allPairs (Geometry.multiPolygon polys) :=
        List.mem_flatten.2 ⟨poly.flatten, List.mem_map.2 ⟨poly, hpoly, rfl⟩,
          List.mem_flatten.2 ⟨ring, hring, hpring⟩⟩
      rw [h p hpmem] at hpfalse
      exact Bool.noConfusion hpfalse

/-- Claim C9: `validateBounds` holds exactly when every coordinate pair of
the geometry — the single pair of a point, and every pair of every ring of
a polygon or multi-polygon — lies in `[-180, 180] × [-90, 90]`; a polygon
containing `(200, 10)` fails and the closed unit square passes.  The
embedded predicate is a pure function of the geometry, so it cannot mutate
its argument. -/
theorem validateBounds_characterization :
    (∀ g : Geometry, validateBounds g = true ↔
      ∀ p ∈ allPairs g, -180 ≤ p.1 ∧ p.1 ≤ 180 ∧ -90 ≤ p.2 ∧ p.2 ≤ 90) ∧
    validateBounds (Geometry.polygon [[(200, 10), (0, 0), (0, 1), (200, 10)]])
      = false ∧
    validateBounds (Geometry.polygon [squareRing]) = true := by
  refine ⟨?_, by decide, by decide⟩
  intro g
  rw [validateBounds_iff_all g]
  constructor
  · intro h p hp
    exact (okCoord_eq_true_iff p.1 p.2).1 (h p hp)
  · intro h p hp
    exact (okCoord_eq_true_iff p.1 p.2).2 (h p hp)

/-- Claim C10: both `closeRings` and `simplifyGeometry` leave a `Point`
geometry untouched — only the `Polygon` and `MultiPolygon` branches
transform anything. -/
theorem point_normalization_identity (c : Pt) (tol : ℚ) :
    closeRings (Geometry.point c) = Geometry.point c ∧
    simplifyGeometry (Geometry.point c) tol = Geometry.point c :=
  ⟨rfl, rfl⟩

end GeospatialViewer
